import Mathlib

/-
Verification of the license-bound block encryption engine of
Protected_Software_Generator_64bits.py.

The Python source is shallowly embedded: bytes become lists of natural
numbers below 256, machine words become naturals reduced modulo 2^32
(respectively 2^128 for the AES counter), and the file rewriting loop of
enc_blocks becomes explicit state passing over a pure model of the two
file handles.  External library primitives used by the source
(hashlib.sha256, hmac, AES in CTR mode from the cryptography package)
are embedded by their standard published algorithms.
-/

namespace PSG

/-- Little-endian byte encoding of a natural number into a fixed number of
bytes, mirroring Python's int.to_bytes with byteorder little (low byte
first); the value is reduced modulo 256^len. -/
def toLEbytes : Nat → Nat → List Nat
  | _, 0 => []
  | n, len + 1 => (n % 256) :: toLEbytes (n / 256) len

/-- Little-endian byte decoding, inverse of toLEbytes on in-range values. -/
def fromLEbytes : List Nat → Nat
  | [] => 0
  | b :: bs => b + 256 * fromLEbytes bs

/-- Big-endian byte encoding of a natural number into a fixed number of
bytes (high byte first). -/
def toBEbytes (n len : Nat) : List Nat := (toLEbytes n len).reverse

/-- Big-endian byte decoding. -/
def fromBEbytes (l : List Nat) : Nat := l.foldl (fun acc b => acc * 256 + b) 0

/-- Reduction modulo 2^32, the word size of SHA-256 arithmetic. -/
def w32 (n : Nat) : Nat := n % 4294967296

/-- Right rotation of a 32-bit word by k positions. -/
def rotr32 (k x : Nat) : Nat := w32 ((x >>> k) ||| (x <<< (32 - k)))

/-- The 64 SHA-256 round constants of FIPS 180-4, written in decimal
(K0 = 1116352408 is 0x428a2f98, and so on). -/
def shaK : List Nat :=
  [1116352408, 1899447441, 3049323471, 3921009573, 961987163, 1508970993,
   2453635748, 2870763221, 3624381080, 310598401, 607225278, 1426881987,
   1925078388, 2162078206, 2614888103, 3248222580, 3835390401, 4022224774,
   264347078, 604807628, 770255983, 1249150122, 1555081692, 1996064986,
   2554220882, 2821834349, 2952996808, 3210313671, 3336571891, 3584528711,
   113926993, 338241895, 666307205, 773529912, 1294757372, 1396182291,
   1695183700, 1986661051, 2177026350, 2456956037, 2730485921, 2820302411,
   3259730800, 3345764771, 3516065817, 3600352804, 4094571909, 275423344,
   430227734, 506948616, 659060556, 883997877, 958139571, 1322822218,
   1537002063, 1747873779, 1955562222, 2024104815, 2227730452, 2361852424,
   2428436474, 2756734187, 3204031479, 3329325298]

/-- The initial SHA-256 hash state of FIPS 180-4, written in decimal
(H0 = 1779033703 is 0x6a09e667, and so on). -/
def shaH0 : List Nat :=
  [1779033703, 3144134277, 1013904242, 2773480762, 1359893119, 2600822924,
   528734635, 1541459225]

/-- Groups a byte list into big-endian 32-bit words. -/
def bytesToWordsBE : List Nat → List Nat
  | b0 :: b1 :: b2 :: b3 :: rest =>
    (((b0 * 256 + b1) * 256 + b2) * 256 + b3) :: bytesToWordsBE rest
  | _ => []

/-- Message-schedule extension of SHA-256: appends one word per fuel step. -/
def shaExtend : List Nat → Nat → List Nat
  | w, 0 => w
  | w, fuel + 1 =>
    let n := w.length
    let x15 := w.getD (n - 15) 0
    let x2 := w.getD (n - 2) 0
    let s0 := (rotr32 7 x15) ^^^ (rotr32 18 x15) ^^^ (x15 >>> 3)
    let s1 := (rotr32 17 x2) ^^^ (rotr32 19 x2) ^^^ (x2 >>> 10)
    shaExtend (w ++ [w32 (w.getD (n - 16) 0 + s0 + w.getD (n - 7) 0 + s1)]) fuel

/-- One SHA-256 compression round; kw is the round constant plus the
schedule word, already reduced modulo 2^32. -/
def shaRound (st : List Nat) (kw : Nat) : List Nat :=
  match st with
  | [a, b, c, d, e, f, g, h] =>
    let S1 := (rotr32 6 e) ^^^ (rotr32 11 e) ^^^ (rotr32 25 e)
    let ch := (e &&& f) ^^^ ((0xffffffff ^^^ e) &&& g)
    let temp1 := w32 (h + S1 + ch + kw)
    let S0 := (rotr32 2 a) ^^^ (rotr32 13 a) ^^^ (rotr32 22 a)
    let maj := (a &&& b) ^^^ (a &&& c) ^^^ (b &&& c)
    let temp2 := w32 (S0 + maj)
    [w32 (temp1 + temp2), a, b, c, w32 (d + temp1), e, f, g]
  | other => other

/-- Compression of one 64-byte chunk starting from hash state h, followed
by the feed-forward addition of h. -/
def shaChunkStep (h chunk : List Nat) : List Nat :=
  let ws := shaExtend (bytesToWordsBE chunk) 48
  let st := (List.zip shaK ws).foldl (fun st kw => shaRound st (w32 (kw.1 + kw.2))) h
  List.zipWith (fun x y => w32 (x + y)) h st

/-- SHA-256 padding: a 0x80 byte, zeros to 56 mod 64, and the 8-byte
big-endian bit length. -/
def shaPad (msg : List Nat) : List Nat :=
  msg ++ 0x80 :: (List.replicate ((119 - msg.length % 64) % 64) 0 ++ toBEbytes (msg.length * 8) 8)

/-- Splits a byte list into 64-byte chunks; the fuel is an upper bound on
the number of chunks times 64. -/
def chunks64 : Nat → List Nat → List (List Nat)
  | 0, _ => []
  | _, [] => []
  | fuel + 1, l => l.take 64 :: chunks64 fuel (l.drop 64)

/-- The SHA-256 digest of a byte list, as 32 bytes. -/
def sha256 (msg : List Nat) : List Nat :=
  let padded := shaPad msg
  let hFinal := (chunks64 padded.length padded).foldl shaChunkStep shaH0
  hFinal.foldr (fun x acc => toBEbytes x 4 ++ acc) []

/-- Pads (or first hashes) an HMAC key to the 64-byte SHA-256 block size. -/
def hmacPadKey (key : List Nat) : List Nat :=
  let k0 := if 64 < key.length then sha256 key else key
  k0 ++ List.replicate (64 - k0.length) 0

/-- Embeds hmac_digest of the source: HMAC-SHA256 of data under key. -/
def hmac_digest (key data : List Nat) : List Nat :=
  let k := hmacPadKey key
  sha256 ((k.map (fun b => b ^^^ 0x5c)) ++ sha256 ((k.map (fun b => b ^^^ 0x36)) ++ data))

/-- Embeds hkdf_extract of the source: an empty salt is replaced by 32
zero bytes (the digest size), then PRK = HMAC(salt, ikm). -/
def hkdf_extract (salt ikm : List Nat) : List Nat :=
  let salt2 := if salt.length = 0 then List.replicate 32 0 else salt
  hmac_digest salt2 ikm

/-- The while loop of hkdf_expand in the source, with explicit fuel: while
okm is shorter than len, set t to HMAC(prk, t ++ info ++ [i+1]) and append
it to okm; finally truncate okm to len bytes. -/
def hkdf_expandLoop (prk info : List Nat) (len : Nat) : List Nat → List Nat → Nat → Nat → List Nat
  | _, okm, _, 0 => okm.take len
  | t, okm, i, fuel + 1 =>
    if okm.length < len then
      let t2 := hmac_digest prk (t ++ info ++ [i + 1])
      hkdf_expandLoop prk info len t2 (okm ++ t2) (i + 1) fuel
    else okm.take len

/-- Embeds hkdf_expand of the source. Each loop iteration appends a
32-byte HMAC digest, so len iterations of fuel always suffice. -/
def hkdf_expand (prk info : List Nat) (len : Nat) : List Nat :=
  hkdf_expandLoop prk info len [] [] 0 len

/-- Embeds hkdf of the source: extract then expand. -/
def hkdf (salt ikm info : List Nat) (len : Nat) : List Nat :=
  hkdf_expand (hkdf_extract salt ikm) info len

/-- Embeds generate_key of the source, applied to the license file's
content: pc_id is the first read of 32 bytes, key_bytes the next read of
16 bytes (Python's read returns fewer bytes near end of file), and the key
is hkdf(little-endian-8(address), key_bytes, pc_id, 16). -/
def generate_key (address : Nat) (license : List Nat) : List Nat :=
  let pc_id := license.take 32
  let key_bytes := (license.drop 32).take 16
  hkdf (toLEbytes address 8) key_bytes pc_id 16

/-- Concatenation of the images of a list under a list-valued function. -/
def concatMap (f : α → List β) : List α → List β
  | [] => []
  | x :: xs => f x ++ concatMap f xs

/-- One step of multiplication in GF(2^8) with the AES polynomial 0x11b,
processing the bits of b from the low end; fuel counts remaining bits. -/
def gmulLoop : Nat → Nat → Nat → Nat → Nat
  | 0, _, _, acc => acc
  | fuel + 1, a, b, acc =>
    let acc2 := if b % 2 = 1 then acc ^^^ a else acc
    let a2 := if a &&& 0x80 = 0x80 then ((a * 2) % 256) ^^^ 0x1b else (a * 2) % 256
    gmulLoop fuel a2 (b / 2) acc2

/-- Multiplication in GF(2^8) modulo the AES polynomial. -/
def gmul (a b : Nat) : Nat := gmulLoop 8 a b 0

/-- Power in GF(2^8) by repeated gmul. -/
def gpow (a : Nat) : Nat → Nat
  | 0 => 1
  | n + 1 => gmul a (gpow a n)

/-- Left rotation of an 8-bit value by k positions. -/
def rotl8 (k b : Nat) : Nat := ((b <<< k) ||| (b >>> (8 - k))) % 256

/-- The AES S-box: multiplicative inverse in GF(2^8) (as the 254th power,
which also sends 0 to 0) followed by the affine transformation. -/
def sbox (b : Nat) : Nat :=
  let inv := gpow b 254
  inv ^^^ rotl8 1 inv ^^^ rotl8 2 inv ^^^ rotl8 3 inv ^^^ rotl8 4 inv ^^^ 0x63

/-- The AES round constant for word index i (i counted from 1). -/
def rcon (i : Nat) : Nat := gpow 2 (i - 1)

/-- RotWord followed by SubWord and the rcon xor of the first byte, the
transformation applied to every fourth word during key expansion. -/
def subRotWord (prev : List Nat) (i : Nat) : List Nat :=
  match prev with
  | [t0, t1, t2, t3] => [sbox t1 ^^^ rcon (i / 4), sbox t2, sbox t3, sbox t0]
  | other => other

/-- AES-128 key expansion loop over flat byte lists: each fuel step
appends the 4 bytes of word i, namely word (i-4) xor temp, where temp is
the previous word, rotated/substituted/rcon-xored when i is a multiple
of 4. -/
def keyExpandLoop : Nat → Nat → List Nat → List Nat
  | 0, _, w => w
  | fuel + 1, i, w =>
    let prev := w.drop (w.length - 4)
    let temp := if i % 4 = 0 then subRotWord prev i else prev
    let w4 := (w.drop (w.length - 16)).take 4
    keyExpandLoop fuel (i + 1) (w ++ List.zipWith (fun x y => x ^^^ y) w4 temp)

/-- AES-128 expanded key: 44 words (176 bytes) from a 16-byte key. -/
def keyExpand (key : List Nat) : List Nat := keyExpandLoop 40 4 key

/-- Byte-wise xor of the state with a round key. -/
def addRoundKey (st rk : List Nat) : List Nat := List.zipWith (fun x y => x ^^^ y) st rk

/-- S-box substitution of every state byte. -/
def subBytes (st : List Nat) : List Nat := st.map sbox

/-- AES ShiftRows on the flat 16-byte column-major state. -/
def shiftRows (st : List Nat) : List Nat :=
  match st with
  | [b0, b1, b2, b3, b4, b5, b6, b7, b8, b9, b10, b11, b12, b13, b14, b15] =>
    [b0, b5, b10, b15, b4, b9, b14, b3, b8, b13, b2, b7, b12, b1, b6, b11]
  | other => other

/-- MixColumns on one 4-byte column. -/
def mixOne (a0 a1 a2 a3 : Nat) : List Nat :=
  [gmul 2 a0 ^^^ gmul 3 a1 ^^^ a2 ^^^ a3,
   a0 ^^^ gmul 2 a1 ^^^ gmul 3 a2 ^^^ a3,
   a0 ^^^ a1 ^^^ gmul 2 a2 ^^^ gmul 3 a3,
   gmul 3 a0 ^^^ a1 ^^^ a2 ^^^ gmul 2 a3]

/-- AES MixColumns on the flat 16-byte state. -/
def mixColumns (st : List Nat) : List Nat :=
  match st with
  | [b0, b1, b2, b3, b4, b5, b6, b7, b8, b9, b10, b11, b12, b13, b14, b15] =>
    mixOne b0 b1 b2 b3 ++ mixOne b4 b5 b6 b7 ++ mixOne b8 b9 b10 b11 ++ mixOne b12 b13 b14 b15
  | other => other

/-- The 16-byte round key with index r inside the expanded key. -/
def roundKey (ek : List Nat) (r : Nat) : List Nat := (ek.drop (16 * r)).take 16

/-- The middle rounds of AES encryption (SubBytes, ShiftRows, MixColumns,
AddRoundKey), starting at round index r with the given fuel. -/
def aesRounds (ek : List Nat) : Nat → Nat → List Nat → List Nat
  | _, 0, st => st
  | r, fuel + 1, st =>
    aesRounds ek (r + 1) fuel (addRoundKey (mixColumns (shiftRows (subBytes st))) (roundKey ek r))

/-- AES-128 encryption of one 16-byte block under an expanded key. -/
def aesEncryptBlock (ek block : List Nat) : List Nat :=
  let st := addRoundKey block (roundKey ek 0)
  let st9 := aesRounds ek 1 9 st
  addRoundKey (shiftRows (subBytes st9)) (roundKey ek 10)

/-- Embeds the module-level constant iv of the source. -/
def iv : List Nat :=
  [0xC2, 0x40, 0xEC, 0xD0, 0x63, 0x63, 0x62, 0xDF, 0xBF, 0xD3, 0xB8, 0xF2, 0x7C, 0x3B, 0x80, 0x02]

/-- The CTR-mode keystream of the cryptography package: the 16-byte IV is
read as a big-endian counter, incremented modulo 2^128 per block, and each
counter block is AES-encrypted; enough blocks are produced to cover len
bytes. -/
def aesCtrKeystream (key : List Nat) (len : Nat) : List Nat :=
  let ek := keyExpand key
  let ivNum := fromBEbytes iv
  concatMap (fun j => aesEncryptBlock ek (toBEbytes ((ivNum + j) % (2 ^ 128)) 16))
    (List.range ((len + 15) / 16))

/-- Embeds encrypt_data of the source: AES-CTR with the module-level iv,
xoring the data with the keystream. -/
def encrypt_data (data aes_key : List Nat) : List Nat :=
  List.zipWith (fun x y => x ^^^ y) data (aesCtrKeystream aes_key data.length)

/-- Modelled from the spec: the runtime loader's decrypt direction of the
same AES-CTR stream cipher with the same iv, which for counter mode xors
the ciphertext with the identical keystream.  The loader itself is an
external collaborator and not part of this repository's sources. -/
def decrypt_data (data aes_key : List Nat) : List Nat :=
  List.zipWith (fun x y => x ^^^ y) data (aesCtrKeystream aes_key data.length)

/-- Embeds the generator expression of filter_blocks_by_relocations
counting relocation addresses with start <= addr < end. -/
def relocs_in_block (relocation_addresses : List Nat) (s e : Nat) : Nat :=
  (relocation_addresses.filter (fun a => decide (s ≤ a ∧ a < e))).length

/-- Embeds filter_blocks_by_relocations of the source: a range survives
exactly when the relocations it contains are fewer than its size divided
by 8. -/
def filter_blocks_by_relocations (ranges : List (Nat × Nat)) (relocation_addresses : List Nat) :
    List (Nat × Nat) :=
  ranges.filter (fun r => decide (relocs_in_block relocation_addresses r.1 r.2 < (r.2 - r.1) / 8))

/-- Lexicographic comparison of pairs, the order Python's sorted uses on
2-tuples of integers. -/
def lexLe (a b : Nat × Nat) : Bool := decide (a.1 < b.1 ∨ (a.1 = b.1 ∧ a.2 ≤ b.2))

/-- Insertion of an element into a lexLe-sorted list. -/
def insertSorted (x : Nat × Nat) : List (Nat × Nat) → List (Nat × Nat)
  | [] => [x]
  | y :: ys => if lexLe x y then x :: y :: ys else y :: insertSorted x ys

/-- Embeds Python's sorted on lists of pairs (insertion sort; any
comparison sort computes the same sorted sequence on a total order). -/
def pySorted : List (Nat × Nat) → List (Nat × Nat)
  | [] => []
  | x :: xs => insertSorted x (pySorted xs)

/-- The final Region set of the pipeline's main block: relocation
filtering followed by sorting. -/
def finalRegions (ranges : List (Nat × Nat)) (relocs : List Nat) : List (Nat × Nat) :=
  pySorted (filter_blocks_by_relocations ranges relocs)

/-- Python file read at a position: at most n bytes from pos (fewer near
end of file, none at or past it); a negative n reads to end of file. -/
def pyRead (file : List Nat) (pos : Nat) (n : Int) : List Nat :=
  if n < 0 then file.drop pos else (file.drop pos).take n.toNat

/-- Python file write at a position on a file opened r+b: overwrites in
place, zero-padding the gap when writing past end of file; writing an
empty byte string changes nothing. -/
def writeAt (file : List Nat) (pos : Nat) (data : List Nat) : List Nat :=
  if data = [] then file
  else file.take pos ++ List.replicate (pos - file.length) 0 ++ data ++ file.drop (pos + data.length)

/-- State of the two file handles inside enc_blocks: the output file's
content and position, the source handle's position, and the
current_position bookkeeping variable of the source. -/
structure EncState where
  out : List Nat
  outPos : Nat
  readPos : Nat
  curPos : Int
  deriving Repr, DecidableEq

/-- One iteration of the block loop of enc_blocks: copy through verbatim
bytes when the block's raw start lies past current_position, then seek the
source to the raw start (a negative raw offset makes the seek fail as in
Python), read the block, derive its key from the license and its virtual
start, encrypt, and write the ciphertext at the raw start. -/
def encStep (input license : List Nat) (raw_factor : Int) (st : EncState) (b : Nat × Nat) :
    Except String EncState :=
  let start_raw : Int := (b.1 : Int) - raw_factor
  let end_raw : Int := (b.2 : Int) - raw_factor
  let st1 :=
    if st.curPos < start_raw then
      let data := pyRead input st.readPos (start_raw - st.curPos)
      { out := writeAt st.out st.outPos data,
        outPos := st.outPos + data.length,
        readPos := st.readPos + data.length,
        curPos := start_raw }
    else st
  if start_raw < 0 then Except.error "OSError: negative seek"
  else
    let sr := start_raw.toNat
    let block := pyRead input sr (end_raw - start_raw)
    let cur_key := generate_key b.1 license
    let enc := encrypt_data block cur_key
    Except.ok
      { out := writeAt st1.out sr enc,
        outPos := sr + enc.length,
        readPos := sr + block.length,
        curPos := end_raw }

/-- The block loop of enc_blocks over the sorted block list. -/
def encLoop (input license : List Nat) (raw_factor : Int) :
    List (Nat × Nat) → EncState → Except String EncState
  | [], st => Except.ok st
  | b :: bs, st =>
    match encStep input license raw_factor st b with
    | Except.error e => Except.error e
    | Except.ok st2 => encLoop input license raw_factor bs st2

/-- Embeds enc_blocks of the source as a pure function from the input
file's bytes, the license file's bytes, the block list and the raw offset
delta to the output file's bytes: the output starts as a byte copy of the
input, the blocks are processed in sorted order, and the bytes remaining
past current_position are copied through at the end. -/
def enc_blocks (input license : List Nat) (blocks : List (Nat × Nat)) (raw_factor : Int) :
    Except String (List Nat) :=
  match encLoop input license raw_factor (pySorted blocks)
      { out := input, outPos := 0, readPos := 0, curPos := 0 } with
  | Except.error e => Except.error e
  | Except.ok st =>
    let remaining : Int := (input.length : Int) - st.curPos
    Except.ok (if 0 < remaining then writeAt st.out st.outPos (pyRead input st.readPos remaining)
      else st.out)

/-- Embeds the license handling of generate_key together with the file
open: a missing license file raises, any existing content is consumed by
two reads which silently return fewer bytes when the file is short. -/
def generate_keyFile (address : Nat) (licenseFile : Option (List Nat)) :
    Except String (List Nat) :=
  match licenseFile with
  | none => Except.error "FileNotFoundError"
  | some content => Except.ok (generate_key address content)

/-- Embeds the license existence check of the main block: a missing
License.dat prints a warning and exits with status 1 before any
processing. -/
def mainCheckLicense (licenseFile : Option (List Nat)) : Except String Unit :=
  match licenseFile with
  | none => Except.error "exit 1: License.dat not found"
  | some _ => Except.ok ()

/-- Python's int.to_bytes with an explicit length: raises OverflowError
when the value does not fit. -/
def pyToBytesLE (n len : Nat) : Except String (List Nat) :=
  if n < 256 ^ len then Except.ok (toLEbytes n len) else Except.error "OverflowError"

/-- Embeds write_blocks_file of the source: the content of
blocks_list.bin, one 16-byte record per block, 8-byte little-endian start
followed by 8-byte little-endian end. -/
def write_blocks_file : List (Nat × Nat) → Except String (List Nat)
  | [] => Except.ok []
  | (s, e) :: bs =>
    match pyToBytesLE s 8, pyToBytesLE e 8, write_blocks_file bs with
    | Except.ok sb, Except.ok eb, Except.ok rest => Except.ok (sb ++ eb ++ rest)
    | Except.error msg, _, _ => Except.error msg
    | _, Except.error msg, _ => Except.error msg
    | _, _, Except.error msg => Except.error msg

/-- The expand stage written from the spec's words: iteratively T_i =
HMAC(key = PRK, message = T_(i-1) ++ machineId ++ byte(i)) starting from
the empty T_0 and i = 1, concatenating the T_i until at least len bytes
are produced, then truncating to exactly len bytes. -/
def specExpandLoop (prk machineId : List Nat) (len : Nat) : List Nat → List Nat → Nat → Nat → List Nat
  | _, okm, _, 0 => okm.take len
  | t, okm, i, fuel + 1 =>
    if okm.length < len then
      let t2 := hmac_digest prk (t ++ machineId ++ [i + 1])
      specExpandLoop prk machineId len t2 (okm ++ t2) (i + 1) fuel
    else okm.take len

/-- The spec's reference extract-then-expand derivation: PRK =
HMAC(salt = 8-byte little-endian regionStart, message = masterKey),
then the expand stage over machineId, truncated to 16 bytes. -/
def specDerive (regionStart : Nat) (machineId masterKey : List Nat) : List Nat :=
  let prk := hmac_digest (toLEbytes regionStart 8) masterKey
  specExpandLoop prk machineId 16 [] [] 0 16

/-! Length facts for the embedded cryptographic primitives. -/

theorem toLEbytes_length : ∀ n len, (toLEbytes n len).length = len
  | _, 0 => rfl
  | n, len + 1 => by simp [toLEbytes, toLEbytes_length (n / 256) len]

theorem toBEbytes_length (n len : Nat) : (toBEbytes n len).length = len := by
  simp [toBEbytes, toLEbytes_length]

theorem shaRound_length (st : List Nat) (kw : Nat) : (shaRound st kw).length = st.length := by
  unfold shaRound
  split <;> simp_all

theorem foldl_shaRound_length (l : List (Nat × Nat)) :
    ∀ h : List Nat, (l.foldl (fun st kw => shaRound st (w32 (kw.1 + kw.2))) h).length = h.length := by
  induction l with
  | nil => intro h; rfl
  | cons x xs ih => intro h; rw [List.foldl_cons, ih, shaRound_length]

theorem shaChunkStep_length (h chunk : List Nat) : (shaChunkStep h chunk).length = h.length := by
  simp [shaChunkStep, List.length_zipWith, foldl_shaRound_length]

theorem foldl_chunkStep_length (chks : List (List Nat)) :
    ∀ h : List Nat, (chks.foldl shaChunkStep h).length = h.length := by
  induction chks with
  | nil => intro h; rfl
  | cons c cs ih => intro h; rw [List.foldl_cons, ih, shaChunkStep_length]

theorem foldr_toBE4_length (l : List Nat) :
    (l.foldr (fun x acc => toBEbytes x 4 ++ acc) []).length = 4 * l.length := by
  induction l with
  | nil => rfl
  | cons x xs ih => simp [List.foldr_cons, toBEbytes_length, ih]; ring

theorem sha256_length (msg : List Nat) : (sha256 msg).length = 32 := by
  simp [sha256, foldr_toBE4_length, foldl_chunkStep_length, shaH0]

theorem hmac_digest_length (key data : List Nat) : (hmac_digest key data).length = 32 :=
  sha256_length _

theorem hkdf_expandLoop_length (prk info : List Nat) (len : Nat) :
    ∀ fuel t okm i, len ≤ okm.length + 32 * fuel →
      (hkdf_expandLoop prk info len t okm i fuel).length = len
  | 0, _, okm, _, h => by
    simp only [hkdf_expandLoop, List.length_take]
    omega
  | fuel + 1, t, okm, i, h => by
    unfold hkdf_expandLoop
    by_cases hc : okm.length < len
    · rw [if_pos hc]
      apply hkdf_expandLoop_length prk info len fuel
      simp only [List.length_append, hmac_digest_length]
      omega
    · rw [if_neg hc]
      simp only [List.length_take]
      omega

theorem hkdf_length (salt ikm info : List Nat) (len : Nat) : (hkdf salt ikm info len).length = len := by
  unfold hkdf hkdf_expand
  apply hkdf_expandLoop_length
  simp
  omega

theorem generate_key_length (address : Nat) (license : List Nat) :
    (generate_key address license).length = 16 :=
  hkdf_length _ _ _ _

/-! The spec's expand stage coincides with the source's expand loop. -/

theorem specExpandLoop_eq (prk info : List Nat) (len : Nat) :
    ∀ fuel t okm i, specExpandLoop prk info len t okm i fuel = hkdf_expandLoop prk info len t okm i fuel
  | 0, _, _, _ => rfl
  | fuel + 1, t, okm, i => by
    unfold specExpandLoop hkdf_expandLoop
    by_cases hc : okm.length < len
    · rw [if_pos hc, if_pos hc]
      exact specExpandLoop_eq prk info len fuel _ _ _
    · rw [if_neg hc, if_neg hc]

/-- C1: for every 64-bit regionStart, 32-byte machineId and 16-byte
masterKey, the derived per-region key of generate_key equals the spec's
extract-then-expand reference definition: PRK = HMAC(8-byte little-endian
regionStart, masterKey), then T_i = HMAC(PRK, T_(i-1) ++ machineId ++
byte(i)) concatenated and truncated to 16 bytes. -/
theorem C1_key_derivation (regionStart : Nat) (machineId masterKey : List Nat)
    (h64 : regionStart < 2 ^ 64) (hm : machineId.length = 32) (hk : masterKey.length = 16) :
    generate_key regionStart (machineId ++ masterKey) = specDerive regionStart machineId masterKey := by
  have h1 : (machineId ++ masterKey).take 32 = machineId := by
    rw [← hm]; exact List.take_left _ _
  have h2 : ((machineId ++ masterKey).drop 32).take 16 = masterKey := by
    rw [← hm, List.drop_left, ← hk, List.take_length]
  have h3 : ¬ ((toLEbytes regionStart 8).length = 0) := by
    rw [toLEbytes_length]
    omega
  unfold generate_key specDerive hkdf hkdf_expand hkdf_extract
  rw [h1, h2, if_neg h3, specExpandLoop_eq]

/-- Witness for C1 at regionStart 0, an all-zero machineId and an all-zero
masterKey. -/
theorem C1_witness :
    (0 : Nat) < 2 ^ 64 ∧ (List.replicate 32 (0 : Nat)).length = 32 ∧
      (List.replicate 16 (0 : Nat)).length = 16 ∧
      generate_key 0 (List.replicate 32 0 ++ List.replicate 16 0) =
        specDerive 0 (List.replicate 32 0) (List.replicate 16 0) :=
  ⟨by norm_num, by simp, by simp,
    C1_key_derivation 0 _ _ (by norm_num) (by simp) (by simp)⟩

/-- C4 counterexample: a license file truncated to 40 bytes (shorter than
the 48 bytes the spec requires) does not make the run fail; key
generation succeeds on it. -/
theorem C4_counterexample : (generate_keyFile 0 (some (List.replicate 40 0))).isOk = true := rfl

/-- C4 amended: a missing license file is fatal (the main block's
existence check exits, and opening the file raises) before any output;
but a truncated or short license file is not detected: key generation
succeeds and returns a 16-byte key derived from the truncated machineId
and masterKey fields. -/
theorem C4_amended :
    (∀ address, generate_keyFile address none = Except.error "FileNotFoundError") ∧
      mainCheckLicense none = Except.error "exit 1: License.dat not found" ∧
      ∀ address content, generate_keyFile address (some content) =
          Except.ok (generate_key address content) ∧
        (generate_key address content).length = 16 :=
  ⟨fun _ => rfl, rfl, fun address content => ⟨rfl, generate_key_length address content⟩⟩

/-! The relocation filter. -/

theorem mem_filter_blocks (ranges : List (Nat × Nat)) (relocs : List Nat) (p : Nat × Nat) :
    p ∈ filter_blocks_by_relocations ranges relocs ↔
      p ∈ ranges ∧ relocs_in_block relocs p.1 p.2 < (p.2 - p.1) / 8 := by
  simp [filter_blocks_by_relocations, List.mem_filter]

/-- C3: a candidate range survives the relocation filter exactly when the
count of relocation addresses inside it is strictly below the range size
divided by 8; a size-64 range containing 8 relocation addresses is
excluded, and the same range containing 7 is kept. -/
theorem C3_relocation_filter :
    (∀ (ranges : List (Nat × Nat)) (relocs : List Nat) (s e : Nat),
      (s, e) ∈ filter_blocks_by_relocations ranges relocs ↔
        (s, e) ∈ ranges ∧ relocs_in_block relocs s e < (e - s) / 8) ∧
      filter_blocks_by_relocations [(0, 64)] [0, 8, 16, 24, 32, 40, 48, 56] = [] ∧
      filter_blocks_by_relocations [(0, 64)] [0, 8, 16, 24, 32, 40, 48] = [(0, 64)] :=
  ⟨fun ranges relocs s e => mem_filter_blocks ranges relocs (s, e), by decide, by decide⟩

/-- C10: every candidate range shorter than 8 bytes is unconditionally
excluded by the relocation filter, whatever the relocation addresses are,
because its expected relocation count floor((end-start)/8) is 0 and no
count is strictly below 0. -/
theorem C10_short_ranges_excluded (ranges : List (Nat × Nat)) (relocs : List Nat) (s e : Nat)
    (h : e - s < 8) : (s, e) ∉ filter_blocks_by_relocations ranges relocs := by
  intro hmem
  rw [mem_filter_blocks] at hmem
  have h0 : (e - s) / 8 = 0 := Nat.div_eq_of_lt h
  simp only [h0] at hmem
  omega

/-- Witness for C10 on the range of size 7 with no relocations. -/
theorem C10_witness :
    (7 : Nat) - 0 < 8 ∧ (0, 7) ∉ filter_blocks_by_relocations [(0, 7)] [] :=
  ⟨by norm_num, C10_short_ranges_excluded [(0, 7)] [] 0 7 (by norm_num)⟩

/-! The sorting step and the final Region set. -/

theorem insertSorted_perm (x : Nat × Nat) (l : List (Nat × Nat)) :
    List.Perm (insertSorted x l) (x :: l) := by
  induction l with
  | nil => exact List.Perm.refl _
  | cons y ys ih =>
    unfold insertSorted
    by_cases h : lexLe x y
    · rw [if_pos h]
    · rw [if_neg h]
      exact (List.Perm.cons y ih).trans (List.Perm.swap x y ys)

theorem pySorted_perm (l : List (Nat × Nat)) : List.Perm (pySorted l) l := by
  induction l with
  | nil => exact List.Perm.refl _
  | cons x xs ih => exact (insertSorted_perm x (pySorted xs)).trans (List.Perm.cons x ih)

theorem lexLe_trans (a b c : Nat × Nat) (h1 : lexLe a b = true) (h2 : lexLe b c = true) :
    lexLe a c = true := by
  simp only [lexLe, decide_eq_true_eq] at *
  omega

theorem lexLe_total (a b : Nat × Nat) : lexLe a b = true ∨ lexLe b a = true := by
  simp only [lexLe, decide_eq_true_eq]
  omega

theorem insertSorted_pairwise (x : Nat × Nat) (l : List (Nat × Nat))
    (hl : List.Pairwise (fun a b => lexLe a b = true) l) :
    List.Pairwise (fun a b => lexLe a b = true) (insertSorted x l) := by
  induction l with
  | nil => simp [insertSorted]
  | cons y ys ih =>
    rcases List.pairwise_cons.mp hl with ⟨hy, hys⟩
    unfold insertSorted
    by_cases h : lexLe x y
    · rw [if_pos h]
      refine List.pairwise_cons.mpr ⟨?_, hl⟩
      intro z hz
      rcases List.mem_cons.mp hz with rfl | hz2
      · exact h
      · exact lexLe_trans x y z h (hy z hz2)
    · rw [if_neg h]
      refine List.pairwise_cons.mpr ⟨?_, ih hys⟩
      intro z hz
      rcases List.mem_cons.mp ((insertSorted_perm x ys).mem_iff.mp hz) with rfl | hz2
      · rcases lexLe_total y z with hyz | hzy
        · exact hyz
        · exact absurd hzy h
      · exact hy z hz2

theorem pySorted_pairwise (l : List (Nat × Nat)) :
    List.Pairwise (fun a b => lexLe a b = true) (pySorted l) := by
  induction l with
  | nil => exact List.Pairwise.nil
  | cons x xs ih => exact insertSorted_pairwise x (pySorted xs) ih

/-- Half-open intervals a and b share no common address. -/
def intersectFree (a b : Nat × Nat) : Prop :=
  ∀ x : Nat, ¬ ((a.1 ≤ x ∧ x < a.2) ∧ (b.1 ≤ x ∧ x < b.2))

theorem intersectFree_symm : Symmetric intersectFree :=
  fun _ _ h x hx => h x ⟨hx.2, hx.1⟩

theorem mem_finalRegions_size (ranges : List (Nat × Nat)) (relocs : List Nat) (p : Nat × Nat)
    (hp : p ∈ finalRegions ranges relocs) : p.1 + 8 ≤ p.2 := by
  unfold finalRegions at hp
  rw [(pySorted_perm _).mem_iff] at hp
  obtain ⟨-, hcount⟩ := (mem_filter_blocks ranges relocs p).mp hp
  by_contra hc
  have h0 : (p.2 - p.1) / 8 = 0 := Nat.div_eq_of_lt (by omega)
  simp only [h0] at hcount
  omega

/-- C7 counterexample: for the input basic-block list [(0,10), (0,10)]
(overlapping duplicates, no relocations) the final Region set is
[(0,10), (0,10)], which is not strictly ordered by start and whose two
Regions intersect; so the claim fails for arbitrary input block sets. -/
theorem C7_counterexample :
    ¬ List.Pairwise (fun a b : Nat × Nat => a.1 < b.1 ∧ intersectFree a b)
      (finalRegions [(0, 10), (0, 10)] []) := by
  intro h
  have hfr : finalRegions [(0, 10), (0, 10)] [] = [(0, 10), (0, 10)] := by rfl
  rw [hfr] at h
  rcases List.pairwise_cons.mp h with ⟨h1, -⟩
  have h2 := h1 (0, 10) (List.mem_singleton_self _)
  exact absurd h2.1 (lt_irrefl 0)

/-- C7 amended: for any input basic-block set whose ranges are pairwise
non-intersecting, the final Region set (after relocation filtering and
sorting) is strictly ordered by start and no two of its Regions
intersect. -/
theorem C7_ordering (ranges : List (Nat × Nat)) (relocs : List Nat)
    (hdisj : List.Pairwise intersectFree ranges) :
    List.Pairwise (fun a b => a.1 < b.1 ∧ intersectFree a b) (finalRegions ranges relocs) := by
  have hfilter : List.Pairwise intersectFree (filter_blocks_by_relocations ranges relocs) :=
    hdisj.sublist (List.filter_sublist _)
  have hNI : List.Pairwise intersectFree (finalRegions ranges relocs) :=
    (((pySorted_perm _).symm).pairwise_iff (fun h => intersectFree_symm h)).mp hfilter
  have hlex : List.Pairwise (fun a b => lexLe a b = true) (finalRegions ranges relocs) :=
    pySorted_pairwise _
  refine (hlex.and hNI).imp_of_mem ?_
  intro a b ha hb hab
  obtain ⟨hle, hni⟩ := hab
  have hsa := mem_finalRegions_size ranges relocs a ha
  have hsb := mem_finalRegions_size ranges relocs b hb
  have hcases : a.2 ≤ b.1 ∨ b.2 ≤ a.1 := by
    by_contra hc
    push_neg at hc
    rcases Nat.le_total a.1 b.1 with h | h
    · exact hni b.1 ⟨⟨h, by omega⟩, ⟨le_refl _, by omega⟩⟩
    · exact hni a.1 ⟨⟨le_refl _, by omega⟩, ⟨h, by omega⟩⟩
  refine ⟨?_, hni⟩
  simp only [lexLe, decide_eq_true_eq] at hle
  omega

/-- Witness for C7 amended on a disjoint two-block input. -/
theorem C7_witness :
    List.Pairwise intersectFree [(0, 10), (20, 30)] ∧
      List.Pairwise (fun a b => a.1 < b.1 ∧ intersectFree a b)
        (finalRegions [(0, 10), (20, 30)] []) := by
  have hdisj : List.Pairwise intersectFree [((0 : Nat), (10 : Nat)), (20, 30)] := by
    refine List.pairwise_cons.mpr ⟨?_, List.pairwise_singleton _ _⟩
    intro b hb x hx
    rcases List.mem_singleton.mp hb with rfl
    simp only at hx
    omega
  exact ⟨hdisj, C7_ordering [(0, 10), (20, 30)] [] hdisj⟩

/-! Length facts for the embedded AES-CTR cipher. -/

theorem subRotWord_length (prev : List Nat) (i : Nat) : (subRotWord prev i).length = prev.length := by
  unfold subRotWord
  split <;> simp_all

theorem keyExpandLoop_length : ∀ fuel i (w : List Nat), 16 ≤ w.length →
    (keyExpandLoop fuel i w).length = w.length + 4 * fuel
  | 0, _, w, _ => by simp [keyExpandLoop]
  | fuel + 1, i, w, h => by
    unfold keyExpandLoop
    have hprev : (w.drop (w.length - 4)).length = 4 := by
      simp only [List.length_drop]
      omega
    have htemp :
        (if i % 4 = 0 then subRotWord (w.drop (w.length - 4)) i else w.drop (w.length - 4)).length
          = 4 := by
      by_cases hi : i % 4 = 0 <;> simp [hi, subRotWord_length, hprev]
    have hw4 : ((w.drop (w.length - 16)).take 4).length = 4 := by
      simp only [List.length_take, List.length_drop]
      omega
    rw [keyExpandLoop_length fuel (i + 1) _
      (by simp only [List.length_append, List.length_zipWith, htemp, hw4]; omega)]
    simp only [List.length_append, List.length_zipWith, htemp, hw4]
    omega

theorem keyExpand_length (key : List Nat) (hk : key.length = 16) : (keyExpand key).length = 176 := by
  rw [keyExpand, keyExpandLoop_length 40 4 key (by omega), hk]

theorem roundKey_length (ek : List Nat) (r : Nat) (hek : ek.length = 176) (hr : r ≤ 10) :
    (roundKey ek r).length = 16 := by
  simp only [roundKey, List.length_take, List.length_drop, hek]
  omega

theorem subBytes_length (st : List Nat) : (subBytes st).length = st.length := by
  simp [subBytes]

theorem shiftRows_length (st : List Nat) : (shiftRows st).length = st.length := by
  unfold shiftRows
  split <;> simp_all

theorem mixColumns_length (st : List Nat) : (mixColumns st).length = st.length := by
  unfold mixColumns
  split <;> simp_all [mixOne]

theorem aesRounds_length (ek : List Nat) (hek : ek.length = 176) :
    ∀ fuel r (st : List Nat), st.length = 16 → r + fuel ≤ 11 →
      (aesRounds ek r fuel st).length = 16
  | 0, _, _, h, _ => h
  | fuel + 1, r, st, h, hr => by
    unfold aesRounds
    apply aesRounds_length ek hek fuel (r + 1)
    · simp only [addRoundKey, List.length_zipWith, mixColumns_length, shiftRows_length,
        subBytes_length, h, roundKey_length ek r hek (by omega)]
      omega
    · omega

theorem aesEncryptBlock_length (ek block : List Nat) (hek : ek.length = 176)
    (hb : block.length = 16) : (aesEncryptBlock ek block).length = 16 := by
  unfold aesEncryptBlock
  have h0 : (addRoundKey block (roundKey ek 0)).length = 16 := by
    simp only [addRoundKey, List.length_zipWith, hb, roundKey_length ek 0 hek (by omega)]
    omega
  have h9 := aesRounds_length ek hek 9 1 _ h0 (by omega)
  simp only [addRoundKey] at h9
  simp only [addRoundKey, List.length_zipWith, shiftRows_length, subBytes_length, h9,
    roundKey_length ek 10 hek (by omega)]
  omega

theorem concatMap_length_const (f : α → List β) (n : Nat) :
    ∀ l : List α, (∀ x ∈ l, (f x).length = n) → (concatMap f l).length = n * l.length
  | [], _ => by simp [concatMap]
  | x :: xs, h => by
    simp only [concatMap, List.length_append, h x (List.mem_cons_self x xs),
      concatMap_length_const f n xs (fun y hy => h y (List.mem_cons_of_mem x hy)), List.length_cons]
    ring

theorem aesCtrKeystream_length (key : List Nat) (len : Nat) (hk : key.length = 16) :
    (aesCtrKeystream key len).length = 16 * ((len + 15) / 16) := by
  unfold aesCtrKeystream
  rw [concatMap_length_const _ 16 _ ?_]
  · simp [List.length_range]
  · intro j _
    exact aesEncryptBlock_length _ _ (keyExpand_length key hk) (toBEbytes_length _ _)

theorem len_le_keystream (len : Nat) : len ≤ 16 * ((len + 15) / 16) := by
  have h1 := Nat.div_add_mod (len + 15) 16
  have h2 := Nat.mod_lt (len + 15) (show 0 < 16 by norm_num)
  omega

theorem encrypt_data_length (data aes_key : List Nat) (hk : aes_key.length = 16) :
    (encrypt_data data aes_key).length = data.length := by
  simp only [encrypt_data, List.length_zipWith, aesCtrKeystream_length aes_key data.length hk]
  exact Nat.min_eq_left (len_le_keystream _)

/-! Encrypt-then-decrypt is the identity. -/

theorem zipWith_xor_cancel : ∀ data ks : List Nat, data.length ≤ ks.length →
    List.zipWith (fun x y => x ^^^ y) (List.zipWith (fun x y => x ^^^ y) data ks) ks = data
  | [], _, _ => by simp
  | d :: ds, [], h => by simp at h
  | d :: ds, k :: kks, h => by
    simp only [List.zipWith]
    rw [Nat.xor_cancel_right, zipWith_xor_cancel ds kks (by simpa using h)]

/-- C8: encrypting any plaintext with any 16-byte key under the fixed iv,
then applying the decrypt direction of the same counter-mode stream
cipher with the identical key and iv, reproduces the plaintext exactly. -/
theorem C8_encrypt_decrypt_identity (data aes_key : List Nat) (hk : aes_key.length = 16) :
    decrypt_data (encrypt_data data aes_key) aes_key = data := by
  unfold decrypt_data
  rw [encrypt_data_length data aes_key hk]
  unfold encrypt_data
  refine zipWith_xor_cancel data _ ?_
  rw [aesCtrKeystream_length _ _ hk]
  exact len_le_keystream _

/-- Witness for C8 on a one-byte plaintext and the all-zero 16-byte key. -/
theorem C8_witness :
    (List.replicate 16 (0 : Nat)).length = 16 ∧
      decrypt_data (encrypt_data [7] (List.replicate 16 0)) (List.replicate 16 0) = [7] :=
  ⟨by simp, C8_encrypt_decrypt_identity [7] _ (by simp)⟩

/-! Facts about the pure file-handle primitives. -/

theorem pyRead_length_le (file : List Nat) (pos : Nat) (n : Int) :
    (pyRead file pos n).length ≤ file.length - pos := by
  unfold pyRead
  split <;> simp only [List.length_take, List.length_drop] <;> omega

theorem pyRead_getElem (file : List Nat) (pos : Nat) (n : Int) (j : Nat)
    (hj : j < (pyRead file pos n).length) : (pyRead file pos n)[j]? = file[pos + j]? := by
  unfold pyRead at *
  split at hj
  · rw [if_pos (by assumption)]
    exact List.getElem?_drop file pos j
  · rw [if_neg (by assumption)]
    simp only [List.length_take, List.length_drop] at hj
    rw [List.getElem?_take, if_pos (by omega)]
    exact List.getElem?_drop file pos j

theorem writeAt_length (file : List Nat) (pos : Nat) (data : List Nat)
    (h : data = [] ∨ pos + data.length ≤ file.length) :
    (writeAt file pos data).length = file.length := by
  unfold writeAt
  by_cases hd : data = []
  · rw [if_pos hd]
  · rw [if_neg hd]
    rcases h with h | h
    · exact absurd h hd
    · simp only [List.length_append, List.length_take, List.length_replicate, List.length_drop]
      omega

theorem writeAt_getElem_outside (file : List Nat) (pos : Nat) (data : List Nat) (i : Nat)
    (h : data = [] ∨ pos + data.length ≤ file.length)
    (hi : i < pos ∨ pos + data.length ≤ i) :
    (writeAt file pos data)[i]? = file[i]? := by
  unfold writeAt
  by_cases hd : data = []
  · rw [if_pos hd]
  · rw [if_neg hd]
    rcases h with h | h
    · exact absurd h hd
    · have hpos : pos - file.length = 0 := by omega
      rw [hpos]
      simp only [List.replicate_zero, List.append_nil, List.nil_append]
      rw [List.append_assoc]
      have htl : (file.take pos).length = pos := by
        simp only [List.length_take]
        omega
      rcases hi with hi | hi
      · rw [List.getElem?_append_left (by omega : i < (file.take pos).length)]
        rw [List.getElem?_take, if_pos hi]
      · rw [List.getElem?_append_right (by omega : (file.take pos).length ≤ i), htl]
        rw [List.getElem?_append_right (by omega : data.length ≤ i - pos)]
        rw [List.getElem?_drop]
        congr 1
        omega

theorem writeAt_getElem_inside (file : List Nat) (pos : Nat) (data : List Nat) (i : Nat)
    (h : pos + data.length ≤ file.length) (h1 : pos ≤ i) (h2 : i < pos + data.length) :
    (writeAt file pos data)[i]? = data[i - pos]? := by
  unfold writeAt
  have hd : ¬ (data = []) := by
    intro hd
    rw [hd] at h2
    simp at h2
    omega
  rw [if_neg hd]
  have hpos : pos - file.length = 0 := by omega
  rw [hpos]
  simp only [List.replicate_zero, List.append_nil, List.nil_append]
  rw [List.append_assoc]
  have htl : (file.take pos).length = pos := by
    simp only [List.length_take]
    omega
  rw [List.getElem?_append_right (by omega : (file.take pos).length ≤ i), htl]
  rw [List.getElem?_append_left (by omega : i - pos < data.length)]

/-- A copy-through write: reading n bytes of the input at position pos and
writing them back at the same position of an equally long file preserves
the length and preserves agreement with the input everywhere. -/
theorem copyThrough_facts (input out : List Nat) (pos : Nat) (n : Int)
    (hlen : out.length = input.length) :
    (writeAt out pos (pyRead input pos n)).length = input.length ∧
      ∀ i : Nat, out[i]? = input[i]? → (writeAt out pos (pyRead input pos n))[i]? = input[i]? := by
  have hok : pyRead input pos n = [] ∨ pos + (pyRead input pos n).length ≤ out.length := by
    by_cases hd : pyRead input pos n = []
    · exact Or.inl hd
    · right
      have h1 := pyRead_length_le input pos n
      have h2 : 0 < (pyRead input pos n).length := List.length_pos.mpr hd
      omega
  constructor
  · rw [writeAt_length out pos _ hok, hlen]
  · intro i hagree
    by_cases hin : pos ≤ i ∧ i < pos + (pyRead input pos n).length
    · have hle : pos + (pyRead input pos n).length ≤ out.length := by
        rcases hok with hok | hok
        · rw [hok] at hin
          simp at hin
          omega
        · exact hok
      rw [writeAt_getElem_inside out pos _ i hle hin.1 hin.2]
      rw [pyRead_getElem input pos n (i - pos) (by omega)]
      congr 1
      omega
    · rw [writeAt_getElem_outside out pos _ i hok (by omega)]
      exact hagree

theorem pyRead_length_le_toNat (file : List Nat) (pos : Nat) (n : Int) (hn : 0 ≤ n) :
    (pyRead file pos n).length ≤ n.toNat := by
  unfold pyRead
  rw [if_neg (by omega)]
  simp only [List.length_take]
  omega

/-- Facts about the encrypted write of one block inside enc_blocks: the
output length is preserved, ciphertext and plaintext have equal length,
and bytes at offsets outside the block's raw range keep their agreement
with the input. -/
theorem encWrite_facts (input license : List Nat) (b : Nat × Nat) (raw_factor : Int)
    (out1 : List Nat) (hlen1 : out1.length = input.length)
    (hneg : 0 ≤ (b.1 : Int) - raw_factor) :
    (writeAt out1 ((b.1 : Int) - raw_factor).toNat
        (encrypt_data
          (pyRead input ((b.1 : Int) - raw_factor).toNat
            ((b.2 : Int) - raw_factor - ((b.1 : Int) - raw_factor)))
          (generate_key b.1 license))).length = input.length ∧
      (encrypt_data
          (pyRead input ((b.1 : Int) - raw_factor).toNat
            ((b.2 : Int) - raw_factor - ((b.1 : Int) - raw_factor)))
          (generate_key b.1 license)).length =
        (pyRead input ((b.1 : Int) - raw_factor).toNat
          ((b.2 : Int) - raw_factor - ((b.1 : Int) - raw_factor))).length ∧
      ∀ i : Nat, b.1 < b.2 →
        ¬ ((b.1 : Int) - raw_factor ≤ (i : Int) ∧ (i : Int) < (b.2 : Int) - raw_factor) →
        out1[i]? = input[i]? →
        (writeAt out1 ((b.1 : Int) - raw_factor).toNat
          (encrypt_data
            (pyRead input ((b.1 : Int) - raw_factor).toNat
              ((b.2 : Int) - raw_factor - ((b.1 : Int) - raw_factor)))
            (generate_key b.1 license)))[i]? = input[i]? := by
  set sr := ((b.1 : Int) - raw_factor).toNat with hsr
  set block := pyRead input sr ((b.2 : Int) - raw_factor - ((b.1 : Int) - raw_factor)) with hblock
  set enc := encrypt_data block (generate_key b.1 license) with henc
  have henclen : enc.length = block.length :=
    encrypt_data_length _ _ (generate_key_length _ _)
  have hblocklen : block.length ≤ input.length - sr := pyRead_length_le _ _ _
  have hokw : enc = [] ∨ sr + enc.length ≤ out1.length := by
    by_cases he : enc = []
    · exact Or.inl he
    · right
      have hpos : 0 < enc.length := List.length_pos.mpr he
      omega
  refine ⟨?_, henclen, ?_⟩
  · rw [writeAt_length _ _ _ hokw, hlen1]
  · intro i hlt hni hagree
    have hsrv : (sr : Int) = (b.1 : Int) - raw_factor := Int.toNat_of_nonneg hneg
    have houtside : i < sr ∨ sr + enc.length ≤ i := by
      by_contra hc
      push_neg at hc
      obtain ⟨h1, h2⟩ := hc
      apply hni
      have hdiff : ((b.2 : Int) - raw_factor - ((b.1 : Int) - raw_factor)) =
          (b.2 : Int) - (b.1 : Int) := by ring
      have hb2 : block.length ≤ ((b.2 : Int) - (b.1 : Int)).toNat := by
        rw [hblock, hdiff] at *
        exact pyRead_length_le_toNat input sr _ (by omega)
      constructor
      · omega
      · omega
    rw [writeAt_getElem_outside _ _ _ _ hokw houtside]
    exact hagree

/-- Facts about one successful iteration of the block loop: output length
and the read/write position synchronisation are preserved, and for a
nonempty block every offset outside its raw range keeps its agreement
with the input. -/
theorem encStep_ok_facts (input license : List Nat) (raw_factor : Int) (st st' : EncState)
    (b : Nat × Nat) (hok : encStep input license raw_factor st b = Except.ok st')
    (hlen : st.out.length = input.length) (hpos : st.readPos = st.outPos) :
    st'.out.length = input.length ∧ st'.readPos = st'.outPos ∧
      ∀ i : Nat, b.1 < b.2 →
        ¬ ((b.1 : Int) - raw_factor ≤ (i : Int) ∧ (i : Int) < (b.2 : Int) - raw_factor) →
        st.out[i]? = input[i]? → st'.out[i]? = input[i]? := by
  simp only [encStep] at hok
  by_cases hneg : (b.1 : Int) - raw_factor < 0
  · rw [if_pos hneg] at hok
    cases hok
  · rw [if_neg hneg] at hok
    by_cases hcur : st.curPos < (b.1 : Int) - raw_factor
    · rw [if_pos hcur] at hok
      injection hok with hok2
      subst hok2
      dsimp only
      rw [hpos]
      obtain ⟨hL1, hF1⟩ :=
        copyThrough_facts input st.out st.outPos ((b.1 : Int) - raw_factor - st.curPos) hlen
      obtain ⟨hA, hB, hC⟩ := encWrite_facts input license b raw_factor _ hL1 (by omega)
      refine ⟨hA, by rw [hB], ?_⟩
      intro i hlt hni hagree
      exact hC i hlt hni (hF1 i hagree)
    · rw [if_neg hcur] at hok
      injection hok with hok2
      subst hok2
      dsimp only
      obtain ⟨hA, hB, hC⟩ := encWrite_facts input license b raw_factor st.out hlen (by omega)
      exact ⟨hA, by rw [hB], fun i hlt hni hagree => hC i hlt hni hagree⟩

/-- Invariant of the whole block loop: output length and position
synchronisation are preserved, and an offset outside the raw ranges of
all remaining nonempty blocks keeps its agreement with the input. -/
theorem encLoop_ok_facts (input license : List Nat) (raw_factor : Int) :
    ∀ (bs : List (Nat × Nat)) (st st' : EncState),
      encLoop input license raw_factor bs st = Except.ok st' →
      st.out.length = input.length → st.readPos = st.outPos →
      st'.out.length = input.length ∧ st'.readPos = st'.outPos ∧
        ∀ i : Nat,
          (∀ b ∈ bs, b.1 < b.2 ∧
            ¬ ((b.1 : Int) - raw_factor ≤ (i : Int) ∧ (i : Int) < (b.2 : Int) - raw_factor)) →
          st.out[i]? = input[i]? → st'.out[i]? = input[i]?
  | [], st, st', hok, hlen, hpos => by
    simp only [encLoop] at hok
    injection hok with h
    subst h
    exact ⟨hlen, hpos, fun i _ h => h⟩
  | b :: bs, st, st', hok, hlen, hpos => by
    simp only [encLoop] at hok
    cases hstep : encStep input license raw_factor st b with
    | error e => rw [hstep] at hok; cases hok
    | ok st2 =>
      rw [hstep] at hok
      obtain ⟨h1, h2, h3⟩ := encStep_ok_facts input license raw_factor st st2 b hstep hlen hpos
      obtain ⟨g1, g2, g3⟩ := encLoop_ok_facts input license raw_factor bs st2 st' hok h1 h2
      refine ⟨g1, g2, ?_⟩
      intro i hb hagree
      have hbb := hb b (List.mem_cons_self b bs)
      exact g3 i (fun b' hb' => hb b' (List.mem_cons_of_mem b hb'))
        (h3 i hbb.1 hbb.2 hagree)

/-- C6: the Block Cipher is length preserving for every plaintext under
any 16-byte key, and whenever enc_blocks succeeds the output file has
exactly the size of the input file. -/
theorem C6_length_preservation :
    (∀ data aes_key : List Nat, aes_key.length = 16 →
        (encrypt_data data aes_key).length = data.length) ∧
      ∀ (input license : List Nat) (blocks : List (Nat × Nat)) (raw_factor : Int)
        (out : List Nat), enc_blocks input license blocks raw_factor = Except.ok out →
        out.length = input.length := by
  refine ⟨fun data aes_key hk => encrypt_data_length data aes_key hk, ?_⟩
  intro input license blocks raw_factor out hok
  simp only [enc_blocks] at hok
  cases hloop : encLoop input license raw_factor (pySorted blocks)
      { out := input, outPos := 0, readPos := 0, curPos := 0 } with
  | error e => rw [hloop] at hok; cases hok
  | ok st =>
    rw [hloop] at hok
    obtain ⟨h1, h2, -⟩ :=
      encLoop_ok_facts input license raw_factor (pySorted blocks) _ st hloop rfl rfl
    injection hok with hok2
    subst hok2
    by_cases hrem : 0 < (input.length : Int) - st.curPos
    · rw [if_pos hrem, h2]
      exact (copyThrough_facts input st.out st.outPos _ h1).1
    · rw [if_neg hrem]
      exact h1

/-- Witness for C6: a 3-byte plaintext under the all-zero 16-byte key,
and a block-free run on a 2-byte file. -/
theorem C6_witness :
    (encrypt_data [1, 2, 3] (List.replicate 16 0)).length = 3 ∧
      enc_blocks [5, 6] (List.replicate 48 0) [] 0 = Except.ok [5, 6] ∧
      ([5, 6] : List Nat).length = 2 :=
  ⟨C6_length_preservation.1 [1, 2, 3] (List.replicate 16 0) (by simp), rfl,
    C6_length_preservation.2 [5, 6] (List.replicate 48 0) [] 0 [5, 6] rfl⟩

/-- C2: for every input file and every final Region set, every byte of
the output at an offset not covered by any Region's raw range
[start - raw_factor, end - raw_factor) equals the input's byte at that
offset. -/
theorem C2_verbatim_outside_regions (input license : List Nat) (ranges : List (Nat × Nat))
    (relocs : List Nat) (raw_factor : Int) (out : List Nat)
    (hok : enc_blocks input license (finalRegions ranges relocs) raw_factor = Except.ok out)
    (i : Nat)
    (hcov : ∀ b ∈ finalRegions ranges relocs,
      ¬ ((b.1 : Int) - raw_factor ≤ (i : Int) ∧ (i : Int) < (b.2 : Int) - raw_factor)) :
    out[i]? = input[i]? := by
  simp only [enc_blocks] at hok
  cases hloop : encLoop input license raw_factor (pySorted (finalRegions ranges relocs))
      { out := input, outPos := 0, readPos := 0, curPos := 0 } with
  | error e => rw [hloop] at hok; cases hok
  | ok st =>
    rw [hloop] at hok
    obtain ⟨h1, h2, h3⟩ := encLoop_ok_facts input license raw_factor
      (pySorted (finalRegions ranges relocs)) _ st hloop rfl rfl
    have hagree : st.out[i]? = input[i]? := by
      apply h3 i ?_ rfl
      intro b hb
      have hbmem : b ∈ finalRegions ranges relocs := (pySorted_perm _).mem_iff.mp hb
      have hsize := mem_finalRegions_size ranges relocs b hbmem
      exact ⟨by omega, hcov b hbmem⟩
    injection hok with hok2
    subst hok2
    by_cases hrem : 0 < (input.length : Int) - st.curPos
    · rw [if_pos hrem, h2]
      exact (copyThrough_facts input st.out st.outPos _ h1).2 i hagree
    · rw [if_neg hrem]
      exact hagree

/-- Witness for C2 on an empty Region set over a 2-byte file. -/
theorem C2_witness :
    enc_blocks [3, 4] (List.replicate 48 0) (finalRegions [] []) 0 = Except.ok [3, 4] ∧
      (∀ b ∈ finalRegions [] [],
        ¬ ((b.1 : Int) - 0 ≤ (0 : Int) ∧ (0 : Int) < (b.2 : Int) - 0)) ∧
      ([3, 4] : List Nat)[0]? = ([3, 4] : List Nat)[0]? := by
  have hcov : ∀ b ∈ finalRegions [] [],
      ¬ ((b.1 : Int) - 0 ≤ (0 : Int) ∧ (0 : Int) < (b.2 : Int) - 0) := by
    intro b hb
    simp [finalRegions, filter_blocks_by_relocations, pySorted] at hb
  have hok : enc_blocks [3, 4] (List.replicate 48 0) (finalRegions [] []) 0 =
      Except.ok [3, 4] := rfl
  exact ⟨hok, hcov,
    C2_verbatim_outside_regions [3, 4] (List.replicate 48 0) [] [] 0 [3, 4] hok 0 hcov⟩

/-- The block loop never fails when every block's raw start offset is
non-negative: seeks past end of file and short reads are silent. -/
theorem encLoop_no_error (input license : List Nat) (raw_factor : Int) :
    ∀ (bs : List (Nat × Nat)) (st : EncState),
      (∀ b ∈ bs, 0 ≤ (b.1 : Int) - raw_factor) →
      ∃ st', encLoop input license raw_factor bs st = Except.ok st'
  | [], st, _ => ⟨st, rfl⟩
  | b :: bs, st, h => by
    simp only [encLoop]
    have hstep : ∃ st2, encStep input license raw_factor st b = Except.ok st2 := by
      simp only [encStep]
      rw [if_neg (show ¬ ((b.1 : Int) - raw_factor < 0) by
        have := h b (List.mem_cons_self b bs)
        omega)]
      exact ⟨_, rfl⟩
    obtain ⟨st2, hst2⟩ := hstep
    rw [hst2]
    exact encLoop_no_error input license raw_factor bs st2
      (fun b' hb' => h b' (List.mem_cons_of_mem b hb'))

/-- C5 counterexample: a 4-byte source file with one Region whose raw
range [100, 110) lies wholly past end of file makes enc_blocks succeed
and return the file unchanged, rather than fail with an IOError. -/
theorem C5_counterexample :
    enc_blocks [0, 1, 2, 3] (List.replicate 48 0) [(100, 110)] 0 = Except.ok [0, 1, 2, 3] := rfl

/-- C5 amended: a source file shorter than a Region's computed raw offset
is not detected: whenever every Region's raw start offset is
non-negative, enc_blocks succeeds (reads past end of file silently return
no bytes) and output is produced; no IOError is raised. -/
theorem C5_short_file_no_error (input license : List Nat) (blocks : List (Nat × Nat))
    (raw_factor : Int) (hnn : ∀ b ∈ blocks, 0 ≤ (b.1 : Int) - raw_factor) :
    ∃ out, enc_blocks input license blocks raw_factor = Except.ok out := by
  simp only [enc_blocks]
  obtain ⟨st, hst⟩ := encLoop_no_error input license raw_factor (pySorted blocks) _
    (fun b hb => hnn b ((pySorted_perm blocks).mem_iff.mp hb))
  rw [hst]
  exact ⟨_, rfl⟩

/-- Witness for C5 amended: a 1-byte file with a Region at raw offsets
[5, 9). -/
theorem C5_witness :
    (∀ b ∈ [((5 : Nat), (9 : Nat))], 0 ≤ (b.1 : Int) - 0) ∧
      ∃ out, enc_blocks [0] (List.replicate 48 0) [(5, 9)] 0 = Except.ok out := by
  have hnn : ∀ b ∈ [((5 : Nat), (9 : Nat))], 0 ≤ (b.1 : Int) - 0 := by
    intro b hb
    rcases List.mem_singleton.mp hb with rfl
    norm_num
  exact ⟨hnn, C5_short_file_no_error [0] (List.replicate 48 0) [(5, 9)] 0 hnn⟩

/-! The Region table file. -/

theorem fromLE_toLE : ∀ (len n : Nat), fromLEbytes (toLEbytes n len) = n % 256 ^ len
  | 0, n => by
    simp only [toLEbytes, fromLEbytes]
    omega
  | len + 1, n => by
    have hmul : (256 : Nat) ^ (len + 1) = 256 * 256 ^ len := by ring
    simp only [toLEbytes, fromLEbytes, fromLE_toLE len (n / 256), hmul]
    exact (Nat.mod_mul).symm

/-- A successful write of the Region table is the concatenation of the
16-byte records. -/
theorem write_blocks_file_ok : ∀ blocks : List (Nat × Nat),
    (∀ b ∈ blocks, b.1 < 2 ^ 64 ∧ b.2 < 2 ^ 64) →
    write_blocks_file blocks =
      Except.ok (concatMap (fun b => toLEbytes b.1 8 ++ toLEbytes b.2 8) blocks)
  | [], _ => rfl
  | (s, e) :: bs, h => by
    have hs : s < 256 ^ 8 := by
      have := (h (s, e) (List.mem_cons_self _ _)).1
      norm_num
      omega
    have he : e < 256 ^ 8 := by
      have := (h (s, e) (List.mem_cons_self _ _)).2
      norm_num
      omega
    simp only [write_blocks_file, pyToBytesLE, if_pos hs, if_pos he,
      write_blocks_file_ok bs (fun b hb => h b (List.mem_cons_of_mem _ hb))]
    rfl

/-- Record i of the concatenated table decodes to block i. -/
theorem concatMap_record : ∀ (blocks : List (Nat × Nat)) (i s e : Nat),
    blocks[i]? = some (s, e) →
    ((concatMap (fun b => toLEbytes b.1 8 ++ toLEbytes b.2 8) blocks).drop (16 * i)).take 8 =
        toLEbytes s 8 ∧
      (((concatMap (fun b => toLEbytes b.1 8 ++ toLEbytes b.2 8) blocks).drop (16 * i)).drop 8).take 8 =
        toLEbytes e 8
  | [], i, s, e, h => by simp at h
  | b :: bs, 0, s, e, h => by
    simp only [List.getElem?_cons_zero, Option.some.injEq] at h
    subst h
    simp only [concatMap, Nat.mul_zero, List.drop_zero, List.append_assoc]
    constructor
    · exact List.take_left' (toLEbytes_length s 8)
    · rw [List.drop_left' (toLEbytes_length s 8)]
      exact List.take_left' (toLEbytes_length e 8)
  | b :: bs, i + 1, s, e, h => by
    simp only [List.getElem?_cons_succ] at h
    have ih := concatMap_record bs i s e h
    have hlen : (toLEbytes b.1 8 ++ toLEbytes b.2 8).length = 16 := by
      simp [toLEbytes_length]
    have hdrop : (concatMap (fun b => toLEbytes b.1 8 ++ toLEbytes b.2 8) (b :: bs)).drop
        (16 * (i + 1)) =
        (concatMap (fun b => toLEbytes b.1 8 ++ toLEbytes b.2 8) bs).drop (16 * i) := by
      have h16 : 16 * (i + 1) = (toLEbytes b.1 8 ++ toLEbytes b.2 8).length + 16 * i := by
        rw [hlen]
        ring
      rw [show concatMap (fun b => toLEbytes b.1 8 ++ toLEbytes b.2 8) (b :: bs) =
          (toLEbytes b.1 8 ++ toLEbytes b.2 8) ++
            concatMap (fun b => toLEbytes b.1 8 ++ toLEbytes b.2 8) bs from rfl,
        h16, List.drop_append]
    rw [hdrop]
    exact ih

/-- C9: the Region table of an empty list is a zero-byte file, and for
every block list of u64 pairs the table is exactly 16 bytes per Region in
list order, and decoding record i as two 8-byte little-endian unsigned
integers recovers the original (start, end) pair. -/
theorem C9_region_table :
    write_blocks_file [] = Except.ok [] ∧
      ∀ blocks : List (Nat × Nat), (∀ b ∈ blocks, b.1 < 2 ^ 64 ∧ b.2 < 2 ^ 64) →
        ∃ bytes, write_blocks_file blocks = Except.ok bytes ∧
          bytes.length = 16 * blocks.length ∧
          ∀ i s e, blocks[i]? = some (s, e) →
            fromLEbytes ((bytes.drop (16 * i)).take 8) = s ∧
            fromLEbytes (((bytes.drop (16 * i)).drop 8).take 8) = e := by
  refine ⟨rfl, ?_⟩
  intro blocks hb
  refine ⟨concatMap (fun b => toLEbytes b.1 8 ++ toLEbytes b.2 8) blocks,
    write_blocks_file_ok blocks hb, ?_, ?_⟩
  · rw [concatMap_length_const _ 16 blocks (fun b _ => by simp [toLEbytes_length])]
  · intro i s e h
    obtain ⟨h1, h2⟩ := concatMap_record blocks i s e h
    have hmem := hb (s, e) (List.getElem?_mem h)
    have h256 : (256 : Nat) ^ 8 = 2 ^ 64 := by norm_num
    rw [h1, h2, fromLE_toLE, fromLE_toLE, h256]
    exact ⟨Nat.mod_eq_of_lt hmem.1, Nat.mod_eq_of_lt hmem.2⟩

/-- Witness for C9 on a three-Region list, whose table is 48 bytes. -/
theorem C9_witness :
    (∀ b ∈ [((1 : Nat), (2 : Nat)), (3, 4), (5, 6)], b.1 < 2 ^ 64 ∧ b.2 < 2 ^ 64) ∧
      ∃ bytes, write_blocks_file [(1, 2), (3, 4), (5, 6)] = Except.ok bytes ∧
        bytes.length = 16 * [((1 : Nat), (2 : Nat)), (3, 4), (5, 6)].length ∧
        ∀ i s e, [((1 : Nat), (2 : Nat)), (3, 4), (5, 6)][i]? = some (s, e) →
          fromLEbytes ((bytes.drop (16 * i)).take 8) = s ∧
          fromLEbytes (((bytes.drop (16 * i)).drop 8).take 8) = e := by
  have hb : ∀ b ∈ [((1 : Nat), (2 : Nat)), (3, 4), (5, 6)], b.1 < 2 ^ 64 ∧ b.2 < 2 ^ 64 := by
    intro b hb
    fin_cases hb <;> norm_num
  exact ⟨hb, C9_region_table.2 [(1, 2), (3, 4), (5, 6)] hb⟩

end PSG
